import Mathlib

/-
Verification of the buckle package-bootstrapping core against its
natural-language specification.  The definitions below are a shallow
embedding of the Rust sources (src/core/config.rs, src/core/package.rs,
src/core/file.rs, src/core/script.rs, src/core/retry.rs,
src/commands/apply.rs, src/commands/plan.rs).  Rust HashMaps are modelled
as association lists with replace-on-insert semantics; filesystem reads,
directory listings and subprocess results are supplied as explicit input
data; side effects (filesystem writes, process spawns) are recorded in an
explicit effect trace.
-/

deriving instance DecidableEq for Except

namespace Buckle

/-- A buckle error (errors/mod.rs, human_errors shim): a user-facing
message, actionable advice, and an optional internal detail string. -/
structure BError where
  message : String
  advice : String
  internal : String
deriving DecidableEq, Repr

/-- errors::user -/
def userErr (message advice : String) : BError := ⟨message, advice, ""⟩

/-- errors::user_with_internal -/
def userErrInternal (message advice internal : String) : BError :=
  ⟨message, advice, internal⟩

/-- An observable side effect of the pipeline: a process spawn
(interpreter, argument list, environment) or a filesystem write
(destination path, bytes written). -/
inductive Effect where
  | spawn (interpreter : String) (args : List String) (env : List (String × String))
  | fsWrite (path : String) (content : String)
deriving DecidableEq, Repr

/-- Whether an effect is a filesystem write. -/
def Effect.isWrite : Effect → Bool
  | .fsWrite _ _ => true
  | .spawn _ _ _ => false

/-- Whether an effect is a process spawn. -/
def Effect.isSpawn : Effect → Bool
  | .fsWrite _ _ => false
  | .spawn _ _ _ => true

/-- Model of Rust `HashMap<String, String>` contents: an association list
whose insert replaces the value of an existing key in place and appends a
new key at the end. -/
abbrev CMap := List (String × String)

/-- HashMap::insert -/
def mapInsert : CMap → String → String → CMap
  | [], k, v => [(k, v)]
  | (k', v') :: rest, k, v =>
    if k' = k then (k, v) :: rest else (k', v') :: mapInsert rest k v

/-- HashMap::get -/
def mapGet : CMap → String → Option String
  | [], _ => none
  | (k', v) :: rest, k => if k' = k then some v else mapGet rest k

/-- `for (key, val) in entries { map.insert(key, val) }` -/
def mapInsertAll (m : CMap) (entries : CMap) : CMap :=
  entries.foldl (fun acc p => mapInsert acc p.1 p.2) m

/-- The keys of a map, in iteration order. -/
def mapKeys (m : CMap) : List String := m.map Prod.fst

/-- A map whose keys are pairwise distinct (always true of a real HashMap). -/
def KeysNodup (m : CMap) : Prop := (mapKeys m).Nodup

instance (m : CMap) : Decidable (KeysNodup m) := by
  unfold KeysNodup; infer_instance

theorem mapGet_mapInsert (m : CMap) (k' v' k : String) :
    mapGet (mapInsert m k' v') k = if k' = k then some v' else mapGet m k := by
  induction m with
  | nil => simp [mapInsert, mapGet]
  | cons p rest ih =>
    obtain ⟨a, b⟩ := p
    by_cases hak : a = k'
    · subst hak
      simp only [mapInsert, if_pos rfl, mapGet]
      by_cases h : a = k
      · simp [h]
      · simp [h, mapGet]
    · simp only [mapInsert, if_neg hak, mapGet]
      by_cases h : a = k
      · subst h
        have : ¬ k' = a := fun hh => hak hh.symm
        simp [this]
      · simp [h, ih]

theorem mapKeys_cons (a b : String) (rest : CMap) :
    mapKeys ((a, b) :: rest) = a :: mapKeys rest := rfl

theorem mapGet_eq_none_of_not_mem (m : CMap) (k : String) (h : k ∉ mapKeys m) :
    mapGet m k = none := by
  induction m with
  | nil => rfl
  | cons p rest ih =>
    obtain ⟨a, b⟩ := p
    rw [mapKeys_cons, List.mem_cons] at h
    push_neg at h
    have h1 : ¬ a = k := fun hh => h.1 hh.symm
    simp only [mapGet, if_neg h1]
    exact ih h.2

theorem mapGet_mapInsertAll (es : CMap) (hnd : KeysNodup es) (m : CMap) (k : String) :
    mapGet (mapInsertAll m es) k =
      match mapGet es k with
      | some v => some v
      | none => mapGet m k := by
  induction es generalizing m with
  | nil => simp [mapInsertAll, mapGet]
  | cons p rest ih =>
    obtain ⟨a, b⟩ := p
    have hnd' : KeysNodup rest := by
      unfold KeysNodup mapKeys at hnd ⊢
      exact (List.nodup_cons.mp hnd).2
    have hnotmem : a ∉ mapKeys rest := by
      unfold KeysNodup mapKeys at hnd
      exact (List.nodup_cons.mp hnd).1
    have step : mapInsertAll m ((a, b) :: rest) = mapInsertAll (mapInsert m a b) rest := by
      simp [mapInsertAll]
    rw [step, ih hnd']
    by_cases hak : a = k
    · subst hak
      have : mapGet rest a = none := mapGet_eq_none_of_not_mem rest a hnotmem
      simp [this, mapGet, mapGet_mapInsert]
    · simp [mapGet, hak, mapGet_mapInsert]

/-! ### Config parsing (src/core/config.rs) -/

/-- Rust `str::split(sep)` at the character level: the list of fields
separated by the separator (an empty input gives one empty field). -/
def splitChar (sep : Char) : List Char → List (List Char)
  | [] => [[]]
  | c :: cs =>
    match splitChar sep cs with
    | [] => [[]]
    | l :: ls => if c = sep then [] :: l :: ls else (c :: l) :: ls

/-- Rust `str::split_terminator('\n')`: like `split('\n')` but without the
final empty field produced by a trailing newline (or by an empty input). -/
def splitTerminator (s : String) : List String :=
  let fields := splitChar '\n' s.data
  let fields :=
    match fields.getLast? with
    | some [] => fields.dropLast
    | _ => fields
  fields.map (fun cs => String.mk cs)

/-- Rust `char::is_whitespace` restricted to the ASCII whitespace that
config lines can contain. -/
def isWsChar (c : Char) : Bool :=
  c = ' ' || c = '\t' || c = '\n' || c = '\r'

/-- Rust `str::trim`: remove leading and trailing whitespace. -/
def strTrim (s : String) : String :=
  String.mk (((s.data.dropWhile isWsChar).reverse.dropWhile isWsChar).reverse)

/-- Rust `str::split_once('=')` on the character list: split at the first
occurrence of the separator only. -/
def splitOnceChars : List Char → Option (List Char × List Char)
  | [] => none
  | c :: cs =>
    if c = '=' then some ([], cs)
    else
      match splitOnceChars cs with
      | none => none
      | some (a, b) => some (c :: a, b)

/-- Rust `str::split_once('=')`. -/
def splitOnceEq (s : String) : Option (String × String) :=
  (splitOnceChars s.data).map (fun p => (String.mk p.1, String.mk p.2))

/-- parse_config (config.rs:118-131): split the content at newline
terminators, trim each line, split each at the first `=` (lines without
`=` are dropped), and insert the pairs into a fresh map. -/
def parse_config (content : String) : CMap :=
  let pairs := ((splitTerminator content).map strTrim).filterMap splitOnceEq
  mapInsertAll [] pairs

theorem splitChar_of_not_mem (sep : Char) (cs : List Char) (h : sep ∉ cs) :
    splitChar sep cs = [cs] := by
  induction cs with
  | nil => rfl
  | cons c rest ih =>
    simp only [List.mem_cons] at h
    push_neg at h
    have hrest := ih h.2
    have hc : ¬ c = sep := fun hh => h.1 hh.symm
    simp only [splitChar, hrest]
    simp [hc]

theorem strMk_data (s : String) : String.mk s.data = s := by
  cases s; rfl

theorem splitTerminator_single (s : String) (h : '\n' ∉ s.data) (hne : s.data ≠ []) :
    splitTerminator s = [s] := by
  unfold splitTerminator
  rw [splitChar_of_not_mem '\n' s.data h]
  cases hd : s.data with
  | nil => exact absurd hd hne
  | cons c cs =>
    have : String.mk (c :: cs) = s := by rw [← hd]
    simp [this]

theorem splitTerminator_empty : splitTerminator "" = [] := by
  decide

/-! ### Config loading (src/core/config.rs) -/

/-- Rust `Path::extension()` on a file name: the part after the last `.`,
or none when there is no `.` or the only `.` is the leading character. -/
def extensionOf (name : String) : Option String :=
  match splitChar '.' name.data with
  | [] => none
  | [_] => none
  | p :: rest =>
    if p = [] ∧ rest.length = 1 then none
    else (rest.getLast?).map (fun cs => String.mk cs)

/-- A file inside a config/secrets directory, as the loader observes it:
its name, its raw content (for data files), and — when executed as a
script — whether the interpreter exits successfully and what it prints. -/
structure ConfigFile where
  name : String
  content : String
  scriptOk : Bool
  scriptStdout : String
  scriptStderr : String
deriving DecidableEq, Repr

/-- A config/secrets directory: whether it exists, and its regular files
in directory listing order. -/
structure ConfigDir where
  present : Bool
  files : List ConfigFile
deriving DecidableEq, Repr

/-- The unsupported-extension user error of load_config (config.rs:65-71). -/
def errUnsupported (ext : String) : BError :=
  userErr ("The '" ++ ext ++ "' extension is not supported for config files.")
    "Try using a file extension that is supported by buckle."

/-- The missing-extension user error of load_config (config.rs:54-56). -/
def errNoExtension (name : String) : BError :=
  userErr ("Could not determine how to load the config file " ++ name ++
      " because it did not have a file extension.")
    "Use one of the supported file extensions to tell buckle how to read this config file."

/-- The script-failure error of load_script_config (config.rs:107-113). -/
def errScriptFailed (stdout stderr : String) : BError :=
  userErrInternal "Failed to load configuration from script."
    "Read the internal error message and take the appropriate steps to resolve the issue."
    ("---- STDOUT: ----\n" ++ stdout ++ "\n\n---- STDERR: ----\n" ++ stderr)

/-- load_script_config (config.rs:90-116): spawn the interpreter with the
file as its sole argument and no extra environment, capture stdout; a
non-zero exit is an error carrying the combined stdout/stderr. -/
def load_script_config (interpreter : String) (f : ConfigFile) :
    Except BError String × List Effect :=
  (if f.scriptOk then .ok f.scriptStdout
   else .error (errScriptFailed f.scriptStdout f.scriptStderr),
   [Effect.spawn interpreter [f.name] []])

/-- The extension-to-interpreter dispatch shared by config loading
(config.rs:61-64) and task execution (script.rs:62-66). -/
def interpreterFor (ext : String) : Option String :=
  if ext = "ps1" then some "pwsh"
  else if ext = "sh" then some "bash"
  else if ext = "bat" then some "cmd.exe"
  else if ext = "cmd" then some "cmd.exe"
  else none

/-- load_config (config.rs:48-75): dispatch on the file extension — `env`
reads the raw content, script extensions execute the matching interpreter,
anything else (or no extension) is a user error — then parse the content
as key=value lines. -/
def load_config (f : ConfigFile) : Except BError CMap × List Effect :=
  match extensionOf f.name with
  | none => (.error (errNoExtension f.name), [])
  | some ext =>
    if ext = "env" then (.ok (parse_config f.content), [])
    else
      match interpreterFor ext with
      | some interp =>
        match load_script_config interp f with
        | (.ok content, eff) => (.ok (parse_config content), eff)
        | (.error e, eff) => (.error e, eff)
      | none => (.error (errUnsupported ext), [])

/-- The error of a result, when it is one. -/
def exceptErr? {α : Type} : Except BError α → Option BError
  | .error e => some e
  | .ok _ => none

/-- The load errors of a directory's files, in directory listing order. -/
def loadErrors (dir : ConfigDir) : List BError :=
  dir.files.filterMap (fun f => exceptErr? (load_config f).1)

/-- load_all_config (config.rs:14-45): a missing directory is an empty
map; otherwise every file is loaded (the iterator is fully collected, so
every file's load — and its side effects — happens even after a failure),
ok results are merged into one map in listing order (later files
overwrite), the errors are collected into a vector, and `errs.pop()` —
the LAST error — is returned when the vector is nonempty. -/
def load_all_config (dir : ConfigDir) : Except BError CMap × List Effect :=
  if dir.present = false then (.ok [], [])
  else
    (match ((dir.files.map load_config).filterMap (fun r => exceptErr? r.1)).getLast? with
     | some e => .error e
     | none =>
       .ok ((dir.files.map load_config).foldl
         (fun acc r => match r.1 with | .ok cfg => mapInsertAll acc cfg | .error _ => acc) []),
     (dir.files.map load_config).flatMap (fun r => r.2))

theorem loadErrors_eq (dir : ConfigDir) :
    (dir.files.map load_config).filterMap (fun r => exceptErr? r.1) = loadErrors dir := by
  unfold loadErrors
  rw [List.filterMap_map]
  rfl

/-- Effects produced by loading a single config file are spawns only. -/
theorem load_config_no_write (f : ConfigFile) :
    ∀ ef ∈ (load_config f).2, ef.isWrite = false := by
  intro ef hef
  cases hx : extensionOf f.name with
  | none => simp [load_config, hx] at hef
  | some ext =>
    simp only [load_config, hx] at hef
    by_cases henv : ext = "env"
    · simp [henv] at hef
    · rw [if_neg henv] at hef
      cases hi : interpreterFor ext with
      | none => simp [hi] at hef
      | some interp =>
        rw [hi] at hef
        unfold load_script_config at hef
        by_cases hok : f.scriptOk = true <;>
          simp [hok] at hef <;>
          rw [hef] <;>
          rfl

/-- Effects produced by loading a whole config directory are spawns only. -/
theorem load_all_config_no_write (dir : ConfigDir) :
    ∀ ef ∈ (load_all_config dir).2, ef.isWrite = false := by
  intro ef hef
  unfold load_all_config at hef
  by_cases hp : dir.present = false
  · simp [hp] at hef
  · rw [if_neg hp] at hef
    have hef2 : ef ∈ (dir.files.map load_config).flatMap (fun r => r.2) := hef
    rw [List.mem_flatMap] at hef2
    obtain ⟨r, hr, hefr⟩ := hef2
    rw [List.mem_map] at hr
    obtain ⟨f, _, rfl⟩ := hr
    exact load_config_no_write f ef hefr

/-- C10: config parsing trims each line before splitting, splits at the
first `=` only (so values may contain further `=` characters, as in
`a=b=c` ↦ key `a`, value `b=c`), and whitespace around the separator is
kept inside the key and value (`KEY = val` ↦ key `KEY `, value ` val`). -/
theorem c10_parse_trim_then_split_first_eq :
    (∀ s : String, '\n' ∉ s.data →
        parse_config s =
          match splitOnceEq (strTrim s) with
          | some p => [(p.1, p.2)]
          | none => []) ∧
    parse_config "a=b=c" = [("a", "b=c")] ∧
    splitOnceEq "a=b=c" = some ("a", "b=c") ∧
    parse_config "KEY = val" = [("KEY ", " val")] := by
  refine ⟨?_, by decide, by decide, by decide⟩
  intro s hnl
  by_cases hne : s.data = []
  · have hs : s = "" := by
      cases s with
      | mk d =>
        simp only [String.data] at hne
        subst hne
        rfl
    subst hs
    decide
  · unfold parse_config
    rw [splitTerminator_single s hnl hne]
    cases hsp : splitOnceEq (strTrim s) with
    | none => simp [hsp, mapInsertAll]
    | some p => simp [hsp, mapInsertAll, mapInsert]

/-- Witness for C10 at the concrete line `x=1`. -/
theorem c10_witness :
    parse_config "x=1" =
      (match splitOnceEq (strTrim "x=1") with
       | some p => [(p.1, p.2)]
       | none => []) :=
  c10_parse_trim_then_split_first_eq.1 "x=1" (by decide)

/-- C4 (amended): when at least one file of a present directory fails to
load, load_all_config returns an error rather than a map, and the error
returned is that of the LAST failing file in directory listing order
(`errs.pop()` takes the back of the error vector); no broken source is
skipped. -/
theorem c4_last_error_wins (dir : ConfigDir) (e : BError)
    (hp : dir.present = true) (hl : (loadErrors dir).getLast? = some e) :
    (load_all_config dir).1 = .error e := by
  unfold load_all_config
  rw [hp, if_neg (by decide), loadErrors_eq, hl]

/-- A directory with two files whose extensions are both unsupported. -/
def dirC4 : ConfigDir :=
  ⟨true, [⟨"a.xyz", "", true, "", ""⟩, ⟨"b.foo", "", true, "", ""⟩]⟩

/-- Counterexample to C4 as stated: with two failing files, the error of
the SECOND (last) file is returned, not that of the first failing file in
listing order. -/
theorem c4_counterexample :
    loadErrors dirC4 = [errUnsupported "xyz", errUnsupported "foo"] ∧
    (load_all_config dirC4).1 = .error (errUnsupported "foo") ∧
    errUnsupported "xyz" ≠ errUnsupported "foo" := by
  decide

/-- Witness for the amended C4 at the concrete directory dirC4. -/
theorem c4_witness :
    (load_all_config dirC4).1 = .error (errUnsupported "foo") :=
  c4_last_error_wins dirC4 (errUnsupported "foo") (by decide) (by decide)

/-! ### Files and templates (src/core/file.rs) -/

/-- A file enumerated under a package's files tree (file.rs File struct):
its group, its path relative to the group directory, the raw content of
its source, and the `.tpl`-suffix template flag. -/
structure FileEntry where
  group : String
  relative_path : String
  source_content : String
  is_template : Bool
deriving DecidableEq, Repr

/-- Rust `Path::join` for the string path model. -/
def pathJoin (target rel : String) : String :=
  if target.data.getLast? = some '/' then target ++ rel else target ++ "/" ++ rel

/-- The template render context (file.rs:132-141): every config entry is
inserted, then every secret entry, into a single map — so on a key
collision the secret value wins. -/
def templateContext (config secrets : CMap) : CMap :=
  mapInsertAll (mapInsertAll [] config) secrets

/-- Modelled from the spec: variable lookup of the gtmpl text-templating
engine (an external crate, not part of this repository's sources) —
scanning a variable reference up to its closing braces and substituting
the context value of the key. -/
def renderVar (ctx : CMap) (acc : List Char) : List Char → Option (List Char × List Char)
  | c1 :: c2 :: rest =>
    if c1 = '}' ∧ c2 = '}' then
      some (((mapGet ctx (String.mk acc.reverse)).getD "<no value>").data, rest)
    else if c1 = '}' then none
    else renderVar ctx (c1 :: acc) (c2 :: rest)
  | [_] => none
  | [] => none

/-- Modelled from the spec: the variable-substitution fragment of the
gtmpl engine that buckle templates use — each well-formed variable
reference is replaced by the context value of its key; other characters
are copied through.  The fuel argument is the remaining input length. -/
def renderTplGo (ctx : CMap) : Nat → List Char → List Char
  | 0, cs => cs
  | _ + 1, [] => []
  | fuel + 1, '{' :: '{' :: '.' :: rest =>
    (match renderVar ctx [] rest with
     | some (val, rest2) => val ++ renderTplGo ctx fuel rest2
     | none => '{' :: renderTplGo ctx fuel ('{' :: '.' :: rest))
  | fuel + 1, c :: rest => c :: renderTplGo ctx fuel rest

/-- gtmpl::template applied to a context of string values. -/
def renderTemplate (content : String) (ctx : CMap) : String :=
  String.mk (renderTplGo ctx content.data.length content.data)

/-- File::apply (file.rs:103-114 with template/copy at 116-170): resolve
the destination under the target root; a template file renders its source
through the merged context and writes the rendered text, a plain file
writes its source bytes.  The write is recorded as an effect; OS-level
read/write failures and parent-directory creation are not modelled. -/
def fileApply (f : FileEntry) (target : String) (config secrets : CMap) : List Effect :=
  [Effect.fsWrite (pathJoin target f.relative_path)
    (if f.is_template then renderTemplate f.source_content (templateContext config secrets)
     else f.source_content)]

/-- C8: the render context is the union of config and secrets with the
secret value winning on any shared key, and rendering substitutes merged
values — config NAME=world with template content `Hello ((.NAME))` (with
braces for the parentheses) yields `Hello world`. -/
theorem c8_secret_wins_and_render_substitutes :
    (∀ config secrets k, KeysNodup config → KeysNodup secrets →
        mapGet (templateContext config secrets) k =
          match mapGet secrets k with
          | some v => some v
          | none => mapGet config k) ∧
    fileApply ⟨"g", "hello.txt", "Hello \x7b\x7b.NAME\x7d\x7d", true⟩ "/"
        [("NAME", "world")] [] =
      [Effect.fsWrite "/hello.txt" "Hello world"] := by
  constructor
  · intro config secrets k hc hs
    unfold templateContext
    rw [mapGet_mapInsertAll secrets hs, mapGet_mapInsertAll config hc]
    cases mapGet secrets k <;> cases mapGet config k <;> simp [mapGet]
  · decide

/-- Witness for C8 at concrete colliding maps. -/
theorem c8_witness :
    mapGet (templateContext [("a", "1")] [("a", "2")]) "a" =
      (match mapGet [("a", "2")] "a" with
       | some v => some v
       | none => mapGet [("a", "1")] "a") :=
  c8_secret_wins_and_render_substitutes.1 [("a", "1")] [("a", "2")] "a"
    (by decide) (by decide)

/-! ### Tasks (src/core/script.rs) -/

/-- A task script of a package (script.rs Script struct), plus whether the
spawned interpreter exits successfully when it runs. -/
structure TaskSrc where
  name : String
  path : String
  runOk : Bool
deriving DecidableEq, Repr

/-- The missing-extension user error of Script::run (script.rs:57-59). -/
def errTaskNoExtension (path : String) : BError :=
  userErr ("Could not determine how to run the task file '" ++ path ++
      "' because it did not have a file extension.")
    "Use one of the supported file extensions to tell buckle how to execute this task file."

/-- The unsupported-extension user error of Script::run (script.rs:67-73). -/
def errTaskUnsupported (ext : String) : BError :=
  userErr ("The '" ++ ext ++ "' extension is not supported for task files.")
    "Try using a file extension that is supported by buckle."

/-- The non-zero-exit error of run_script_task (script.rs:101-107);
captured stdout/stderr are not modelled. -/
def errTaskFailed : BError :=
  userErrInternal "Failed to run script."
    "Read the internal error message and take the appropriate steps to resolve the issue." ""

/-- run_script_task (script.rs:82-110): spawn the interpreter with the
task file as its sole argument and the config map — and only the config
map — as the extra child environment (`.arg(file).envs(config)`); a
non-zero exit status is an error. -/
def run_script_task (interpreter : String) (config : CMap) (file : String) (exitOk : Bool) :
    Except BError Unit × List Effect :=
  (if exitOk then .ok () else .error errTaskFailed,
   [Effect.spawn interpreter [file] config])

/-- Rust `Path::file_name` for the string path model. -/
def pathFileName (p : String) : String :=
  match (splitChar '/' p.data).getLast? with
  | some cs => String.mk cs
  | none => p

/-- Script::run (script.rs:51-77): dispatch on the task file's extension
to the interpreter table, then run_script_task.  NOTE: the call site
apply.rs:122 invokes `task.run(&config, &secrets)`, but the function
signature accepts only the config map, and only that map reaches the
child environment; the secrets parameter is kept here to mirror the call
site and is unused, exactly as the secret values never reach
run_script_task in script.rs. -/
def scriptRun (task : TaskSrc) (config : CMap) (secrets : CMap) :
    Except BError Unit × List Effect :=
  match extensionOf (pathFileName task.path) with
  | none => (.error (errTaskNoExtension task.path), [])
  | some ext =>
    match interpreterFor ext with
    | some interp => run_script_task interp config task.path task.runOk
    | none => (.error (errTaskUnsupported ext), [])

/-- C7 (evaluated at the failing input): the interpreter is spawned with
the task file as its sole argument, and the child environment is exactly
the merged config map — merged SECRET entries are never exported, because
Script::run passes only the config map to run_script_task. -/
theorem c7_env_has_config_but_omits_secrets :
    (∀ (interp : String) (config : CMap) (file : String) (exitOk : Bool),
        (run_script_task interp config file exitOk).2 =
          [Effect.spawn interp [file] config]) ∧
    scriptRun ⟨"setup.ps1", "setup.ps1", true⟩ [("A", "1")] [("TOKEN", "x")] =
      (.ok (), [Effect.spawn "pwsh" ["setup.ps1"] [("A", "1")]]) :=
  ⟨fun _ _ _ _ => rfl, by decide⟩

/-! ### Retry policy (src/core/retry.rs and apply.rs:61-75) -/

/-- RetryConfig (retry.rs): a retry limit and a delay in milliseconds;
serde defaults are limit 0 and delay 5000. -/
structure RetryConfig where
  limit : Nat
  delay : Nat
deriving DecidableEq, Repr

/-- The serde default RetryConfig. -/
def RetryConfig.default : RetryConfig := ⟨0, 5000⟩

/-- The observable outcome of the per-package retry loop. -/
inductive RetryOutcome where
  | moreAttempts : RetryOutcome
  | exited (attempts : Nat) : RetryOutcome
  | aborted (attempts : Nat) : RetryOutcome
deriving DecidableEq, Repr

/-- Count one more attempt in a loop outcome. -/
def RetryOutcome.addAttempt : RetryOutcome → RetryOutcome
  | .moreAttempts => .moreAttempts
  | .exited n => .exited (n + 1)
  | .aborted n => .aborted (n + 1)

/-- The per-package retry loop of ApplyCommand::run (apply.rs:61-75) over
an abstract sequence of attempt outcomes (`true` = apply_package returned
Ok for that attempt): `while retries <= limit`, on Ok the loop body does
nothing (retries is unchanged), on Err `retries += 1` and — when
`limit >= retries` — the error is returned, otherwise the thread sleeps
for the configured delay and the loop continues.  `exited n` means the
while condition became false after `n` attempts and the run moves on to
the next package; `aborted n` means the error was returned after `n`
attempts; `moreAttempts` means the loop was still running after all the
supplied outcomes were consumed. -/
def retryLoop (limit : Nat) : Nat → List Bool → RetryOutcome
  | retries, outcomes =>
    if retries > limit then .exited 0
    else
      match outcomes with
      | [] => .moreAttempts
      | ok :: rest =>
        if ok then (retryLoop limit retries rest).addAttempt
        else if limit ≥ retries + 1 then .aborted 1
        else (retryLoop limit (retries + 1) rest).addAttempt

/-- C1 (evaluated at the failing inputs): the retry loop does not
implement the specified retry semantics.  With limit 1 and an apply step
that fails once and then would succeed, the error is returned after the
first attempt (because `limit >= retries` aborts instead of retrying);
with limit 0 a single failure makes the loop exit and the run CONTINUE
(the error is swallowed, not propagated); and after any number of
successful attempts the loop never exits (Ok neither breaks nor changes
retries), so the repository's own apply test would never terminate. -/
theorem c1_retry_loop_diverges_from_spec :
    retryLoop 1 0 [false, true] = .aborted 1 ∧
    retryLoop 0 0 [false] = .exited 1 ∧
    (∀ limit n : Nat, retryLoop limit 0 (List.replicate n true) = .moreAttempts) := by
  refine ⟨by decide, by decide, ?_⟩
  intro limit n
  induction n with
  | zero => simp [retryLoop]
  | succ m ih => simp [retryLoop, List.replicate, ih, RetryOutcome.addAttempt]

/-! ### Packages and dependency resolution (src/core/package.rs) -/

/-- A loaded package (package.rs Package struct) together with the
lazily-resolved content of its directory: `id` is the directory name,
`needs` and `files_map` come from package.yml, and the config dir,
secrets dir, file entries and tasks are what get_config / get_secrets /
get_files / get_tasks observe. -/
structure PackageSrc where
  id : String
  description : String
  needs : List String
  files_map : List (String × String)
  retry : RetryConfig
  configDir : ConfigDir
  secretsDir : ConfigDir
  fileEntries : List FileEntry
  tasks : List TaskSrc
deriving DecidableEq, Repr

/-- The ids of a package list, in listing order. -/
def pkgIds (pkgs : List PackageSrc) : List String := pkgs.map (fun p => p.id)

/-- The dependency graph handed to solvent: each node's dependency set,
in that HashSet's iteration order. -/
structure DepGraph where
  adj : String → List String

/-- The HashMap/HashSet iteration orders that the resolution of a given
package list depends on: the iteration order of the synthetic terminal
node's dependency set (which holds every package id), and of each
package node's `needs` set.  Rust's hash containers are randomly seeded,
so these orders vary from run to run. -/
structure HashOrders where
  completeOrder : List String
  needsOrder : String → List String

/-- The orders a real run can produce: each one enumerates exactly the
members of the corresponding HashSet (each inserted element once). -/
def HashOrders.Valid (ho : HashOrders) (pkgs : List PackageSrc) : Prop :=
  ho.completeOrder.Perm (pkgIds pkgs).dedup ∧
  ∀ p ∈ pkgs, (ho.needsOrder p.id).Perm p.needs.dedup

/-- The graph built by get_all_packages (package.rs:92-96): for every
package, its id is registered with its `needs` as dependencies, and the
synthetic terminal node `__complete` depends on every package id; a node
that was only ever inserted as a dependency has no dependencies. -/
def buildGraph (pkgs : List PackageSrc) (ho : HashOrders) : DepGraph :=
  ⟨fun n =>
    if n = "__complete" then ho.completeOrder
    else
      match pkgs.find? (fun p => p.id == n) with
      | some _ => ho.needsOrder n
      | none => []⟩

/-- Errors of the modelled solvent iteration; `fuelExhausted` is a
modeling artifact standing for a walk longer than the chosen bound (the
chosen fuel is proved sufficient below). -/
inductive SolventError where
  | cycleDetected : SolventError
  | fuelExhausted : SolventError
deriving DecidableEq, Repr

/-- The first entry of a dependency list that is not yet satisfied. -/
def firstUnsat (sat : List String) : List String → Option String
  | [] => none
  | d :: ds => if d ∈ sat then firstUnsat sat ds else some d

/-- Modelled from the spec: one walk of the solvent crate's (an external
dependency, not part of this repository's sources) DepGraphIterator —
starting from a node, repeatedly descend into the first not-yet-satisfied
dependency until reaching a node whose dependencies are all satisfied,
and error when the walk revisits a node on the current path (a cycle). -/
def walkStep (g : DepGraph) (sat : List String) :
    Nat → List String → String → Except SolventError String
  | 0, _, _ => .error .fuelExhausted
  | fuel + 1, curpath, node =>
    if node ∈ curpath then .error .cycleDetected
    else
      match firstUnsat sat (g.adj node) with
      | some dep => walkStep g sat fuel (node :: curpath) dep
      | none => .ok node

/-- Modelled from the spec: the iteration of solvent's dependencies_of —
each step emits the next node all of whose dependencies are satisfied and
marks it satisfied, until the target node itself is satisfied.  The
emitted order lists dependencies before their dependents. -/
def solventGo (g : DepGraph) (target : String) (wfuel : Nat) :
    Nat → List String → Except SolventError (List String)
  | 0, _ => .error .fuelExhausted
  | fuel + 1, sat =>
    if target ∈ sat then .ok []
    else
      match walkStep g sat wfuel [] target with
      | .error e => .error e
      | .ok node => (solventGo g target wfuel fuel (node :: sat)).map (fun l => node :: l)

/-- solvent's `dependencies_of(target)`, fully iterated. -/
def dependenciesOf (g : DepGraph) (target : String) (fuel : Nat) :
    Except SolventError (List String) :=
  solventGo g target fuel fuel []

/-- The dependency-graph user error of get_all_packages
(package.rs:98-101 and 106-109). -/
def errGraph : BError :=
  userErrInternal
    "Failed to calculate a valid execution graph based on the dependencies specified in your packages."
    "Make sure that your packages specify valid dependencies and that there are no circular references."
    ""

/-- The missing-package user error of get_all_packages (package.rs:114-117). -/
def errMissingPkg (node : String) : BError :=
  userErr ("Failed to find package with name '" ++ node ++
      "' although it was present in the dependency graph.")
    "Make sure that this package is present, or remove the dependency from any packages which currently need it."

/-- The final loop of get_all_packages (package.rs:103-121): walk the
solvent order, skip the synthetic `__complete` node, look every other
node up in the package map (a node that is no package is a user error),
and collect the packages in order. -/
def collectPackages (pkgs : List PackageSrc) : List String → Except BError (List PackageSrc)
  | [] => .ok []
  | n :: rest =>
    if n = "__complete" then collectPackages pkgs rest
    else
      match pkgs.find? (fun p => p.id == n) with
      | some p => (collectPackages pkgs rest).map (fun l => p :: l)
      | none => .error (errMissingPkg n)

/-- The iteration bound used for the solvent model: more than the number
of graph nodes (every package plus `__complete` plus every id mentioned
in a `needs` list); proved sufficient below. -/
def resolveFuel (pkgs : List PackageSrc) : Nat :=
  pkgs.length + (pkgs.map (fun p => p.needs.length)).sum + 2

/-- get_all_packages (package.rs:62-124): build the dependency graph from
the loaded packages, compute the solvent order anchored at `__complete`,
fail with the dependency user error when solvent reports a problem, and
collect the ordered packages (skipping `__complete`). -/
def get_all_packages (pkgs : List PackageSrc) (ho : HashOrders) :
    Except BError (List PackageSrc) :=
  match dependenciesOf (buildGraph pkgs ho) "__complete" (resolveFuel pkgs) with
  | .error _ => .error errGraph
  | .ok order => collectPackages pkgs order

/-- The edge relation of the built graph. -/
def adjRel (g : DepGraph) (a b : String) : Prop := b ∈ g.adj a

/-- The declared dependency relation of a package list: `a` needs `b`. -/
def needsRel (pkgs : List PackageSrc) (a b : String) : Prop :=
  ∃ p ∈ pkgs, p.id = a ∧ b ∈ p.needs

/-- The needs graph is acyclic: no id transitively needs itself. -/
def AcyclicNeeds (pkgs : List PackageSrc) : Prop :=
  ∀ n, ¬ Relation.TransGen (needsRel pkgs) n n

/-- Every declared need names an existing package. -/
def NeedsClosed (pkgs : List PackageSrc) : Prop :=
  ∀ p ∈ pkgs, ∀ d ∈ p.needs, d ∈ pkgIds pkgs

instance (pkgs : List PackageSrc) : Decidable (NeedsClosed pkgs) := by
  unfold NeedsClosed; infer_instance

/-- The index of the first occurrence of a string in a list (the list
length when absent). -/
def idxOf (a : String) : List String → Nat
  | [] => 0
  | b :: t => if b = a then 0 else idxOf a t + 1

/-- `a` occurs strictly before `b` in `l`. -/
def precedes (l : List String) (a b : String) : Prop :=
  a ∈ l ∧ b ∈ l ∧ idxOf a l < idxOf b l

theorem precedes_trans (l : List String) (a b c : String)
    (h1 : precedes l a b) (h2 : precedes l b c) : precedes l a c :=
  ⟨h1.1, h2.2.1, Nat.lt_trans h1.2.2 h2.2.2⟩

theorem precedes_irrefl (l : List String) (a : String) : ¬ precedes l a a :=
  fun h => Nat.lt_irrefl _ h.2.2

theorem firstUnsat_none (sat ds : List String) (h : firstUnsat sat ds = none) :
    ∀ d ∈ ds, d ∈ sat := by
  induction ds with
  | nil => intro d hd; simp at hd
  | cons x xs ih =>
    intro d hd
    unfold firstUnsat at h
    by_cases hx : x ∈ sat
    · rw [if_pos hx] at h
      rcases List.mem_cons.mp hd with rfl | hd'
      · exact hx
      · exact ih h d hd'
    · rw [if_neg hx] at h
      exact absurd h (by simp)

theorem firstUnsat_some (sat ds : List String) (d : String)
    (h : firstUnsat sat ds = some d) : d ∈ ds ∧ d ∉ sat := by
  induction ds with
  | nil => simp [firstUnsat] at h
  | cons x xs ih =>
    unfold firstUnsat at h
    by_cases hx : x ∈ sat
    · rw [if_pos hx] at h
      obtain ⟨h1, h2⟩ := ih h
      exact ⟨List.mem_cons_of_mem _ h1, h2⟩
    · rw [if_neg hx] at h
      have hxd : x = d := Option.some.inj h
      subst hxd
      exact ⟨List.mem_cons_self _ _, hx⟩

theorem walkStep_ok_deps (g : DepGraph) (sat : List String) :
    ∀ (fuel : Nat) (cp : List String) (node m : String),
      walkStep g sat fuel cp node = .ok m → ∀ d ∈ g.adj m, d ∈ sat := by
  intro fuel
  induction fuel with
  | zero => intro cp node m h; simp [walkStep] at h
  | succ f ih =>
    intro cp node m h
    unfold walkStep at h
    by_cases hcp : node ∈ cp
    · rw [if_pos hcp] at h
      exact absurd h (by simp)
    · rw [if_neg hcp] at h
      cases hfu : firstUnsat sat (g.adj node) with
      | some dep =>
        rw [hfu] at h
        exact ih _ _ _ h
      | none =>
        rw [hfu] at h
        have hm : node = m := by injection h
        subst hm
        exact firstUnsat_none _ _ hfu

theorem walkStep_ok_reach (g : DepGraph) (sat : List String) :
    ∀ (fuel : Nat) (cp : List String) (node m : String),
      walkStep g sat fuel cp node = .ok m → node ∉ sat →
      m ∉ sat ∧ Relation.ReflTransGen (adjRel g) node m := by
  intro fuel
  induction fuel with
  | zero => intro cp node m h _; simp [walkStep] at h
  | succ f ih =>
    intro cp node m h hns
    unfold walkStep at h
    by_cases hcp : node ∈ cp
    · rw [if_pos hcp] at h
      exact absurd h (by simp)
    · rw [if_neg hcp] at h
      cases hfu : firstUnsat sat (g.adj node) with
      | some dep =>
        rw [hfu] at h
        obtain ⟨hadj, hdsat⟩ := firstUnsat_some _ _ _ hfu
        obtain ⟨hm, hreach⟩ := ih _ _ _ h hdsat
        exact ⟨hm, Relation.ReflTransGen.head hadj hreach⟩
      | none =>
        rw [hfu] at h
        have hm : node = m := by injection h
        subst hm
        exact ⟨hns, Relation.ReflTransGen.refl⟩

theorem walkStep_ok_exists (g : DepGraph) (U : List String)
    (hclosed : ∀ n ∈ U, ∀ d ∈ g.adj n, d ∈ U)
    (hacyc : ∀ n, ¬ Relation.TransGen (adjRel g) n n) (sat : List String) :
    ∀ (fuel : Nat) (cp : List String) (node : String),
      node ∈ U → cp.Nodup → (∀ c ∈ cp, c ∈ U) →
      (∀ c ∈ cp, Relation.TransGen (adjRel g) c node) →
      U.length + 1 ≤ fuel + cp.length →
      ∃ m, walkStep g sat fuel cp node = .ok m := by
  intro fuel
  induction fuel with
  | zero =>
    intro cp node hnU hnd hcpU hchain hfuel
    exfalso
    have hncp : node ∉ cp := fun hmem => hacyc node (hchain node hmem)
    have hnd2 : (node :: cp).Nodup := List.nodup_cons.mpr ⟨hncp, hnd⟩
    have hsub : (node :: cp) ⊆ U := by
      intro x hx
      rcases List.mem_cons.mp hx with rfl | hx'
      · exact hnU
      · exact hcpU x hx'
    have hle : (node :: cp).length ≤ U.length :=
      (List.subperm_of_subset hnd2 hsub).length_le
    simp only [List.length_cons] at hle
    omega
  | succ f ih =>
    intro cp node hnU hnd hcpU hchain hfuel
    have hncp : node ∉ cp := fun hmem => hacyc node (hchain node hmem)
    unfold walkStep
    rw [if_neg hncp]
    cases hfu : firstUnsat sat (g.adj node) with
    | none => exact ⟨node, rfl⟩
    | some dep =>
      obtain ⟨hadj, _⟩ := firstUnsat_some _ _ _ hfu
      apply ih (node :: cp) dep
      · exact hclosed node hnU dep hadj
      · exact List.nodup_cons.mpr ⟨hncp, hnd⟩
      · intro c hc
        rcases List.mem_cons.mp hc with rfl | hc'
        · exact hnU
        · exact hcpU c hc'
      · intro c hc
        rcases List.mem_cons.mp hc with rfl | hc'
        · exact Relation.TransGen.single hadj
        · exact (hchain c hc').tail hadj
      · simp only [List.length_cons]
        omega

/-- The emitted order is progressively dependency-closed over an initial
satisfied set: each emitted node's dependencies are already satisfied,
and no node is emitted twice. -/
def DepsClosedSeq (g : DepGraph) : List String → List String → Prop
  | _, [] => True
  | sat, n :: rest => (∀ d ∈ g.adj n, d ∈ sat) ∧ n ∉ sat ∧ DepsClosedSeq g (n :: sat) rest

theorem dcs_nodup (g : DepGraph) :
    ∀ (ord sat : List String), DepsClosedSeq g sat ord →
      ord.Nodup ∧ ∀ n ∈ ord, n ∉ sat := by
  intro ord
  induction ord with
  | nil => intro sat _; exact ⟨List.nodup_nil, by simp⟩
  | cons n0 rest ih =>
    intro sat h
    obtain ⟨hdeps, hn0, hrest⟩ := h
    obtain ⟨hnd, hmem⟩ := ih (n0 :: sat) hrest
    have hn0rest : n0 ∉ rest := fun hmem2 =>
      (hmem n0 hmem2) (List.mem_cons_self _ _)
    refine ⟨List.nodup_cons.mpr ⟨hn0rest, hnd⟩, ?_⟩
    intro n hn
    rcases List.mem_cons.mp hn with rfl | hn'
    · exact hn0
    · intro hsat
      exact (hmem n hn') (List.mem_cons_of_mem _ hsat)

theorem idxOf_cons_self (a : String) (t : List String) : idxOf a (a :: t) = 0 := by
  simp [idxOf]

theorem idxOf_cons_ne (a b : String) (t : List String) (h : b ≠ a) :
    idxOf a (b :: t) = idxOf a t + 1 := by
  simp [idxOf, h]

theorem precedes_cons (t : List String) (a b h : String)
    (hp : precedes t a b) (hbh : b ≠ h) : precedes (h :: t) a b := by
  obtain ⟨ha, hb, hlt⟩ := hp
  refine ⟨List.mem_cons_of_mem _ ha, List.mem_cons_of_mem _ hb, ?_⟩
  rw [idxOf_cons_ne b h t (fun hh => hbh hh.symm)]
  by_cases hha : h = a
  · rw [hha, idxOf_cons_self]
    omega
  · rw [idxOf_cons_ne a h t hha]
    omega

theorem precedes_cons_head (t : List String) (b h : String)
    (hb : b ∈ t) (hbh : b ≠ h) : precedes (h :: t) h b := by
  refine ⟨List.mem_cons_self _ _, List.mem_cons_of_mem _ hb, ?_⟩
  rw [idxOf_cons_self, idxOf_cons_ne b h t (fun hh => hbh hh.symm)]
  omega

theorem dcs_adj_precedes (g : DepGraph) :
    ∀ (ord sat : List String), DepsClosedSeq g sat ord →
      ∀ n ∈ ord, ∀ d ∈ g.adj n, d ∈ sat ∨ precedes ord d n := by
  intro ord
  induction ord with
  | nil => intro sat _ n hn; simp at hn
  | cons n0 rest ih =>
    intro sat h n hn d hd
    obtain ⟨hdeps, hn0, hrest⟩ := h
    have hnodup : (n0 :: rest).Nodup :=
      (dcs_nodup g (n0 :: rest) sat ⟨hdeps, hn0, hrest⟩).1
    have hn0rest : n0 ∉ rest := (List.nodup_cons.mp hnodup).1
    rcases List.mem_cons.mp hn with rfl | hn'
    · exact Or.inl (hdeps d hd)
    · have hne : n ≠ n0 := fun hh => hn0rest (hh ▸ hn')
      rcases ih (n0 :: sat) hrest n hn' d hd with hds | hp
      · rcases List.mem_cons.mp hds with rfl | hds'
        · exact Or.inr (precedes_cons_head rest n d hn' hne)
        · exact Or.inl hds'
      · exact Or.inr (precedes_cons rest d n n0 hp hne)

theorem rtGen_mem_of_closed (g : DepGraph) (U : List String)
    (hclosed : ∀ n ∈ U, ∀ d ∈ g.adj n, d ∈ U) (a b : String)
    (h : Relation.ReflTransGen (adjRel g) a b) (ha : a ∈ U) : b ∈ U := by
  induction h with
  | refl => exact ha
  | tail _ hbc ih => exact hclosed _ ih _ hbc

theorem sg_ok_closedSeq (g : DepGraph) (target : String) (wfuel : Nat) :
    ∀ (fuel : Nat) (sat ord : List String),
      solventGo g target wfuel fuel sat = .ok ord → DepsClosedSeq g sat ord := by
  intro fuel
  induction fuel with
  | zero => intro sat ord h; simp [solventGo] at h
  | succ f ih =>
    intro sat ord h
    unfold solventGo at h
    by_cases ht : target ∈ sat
    · rw [if_pos ht] at h
      have : ([] : List String) = ord := by injection h
      subst this
      trivial
    · rw [if_neg ht] at h
      cases hw : walkStep g sat wfuel [] target with
      | error e => rw [hw] at h; exact absurd h (by simp)
      | ok node =>
        rw [hw] at h
        simp only [] at h
        cases hrec : solventGo g target wfuel f (node :: sat) with
        | error e => rw [hrec] at h; exact absurd h (by simp [Except.map])
        | ok ord' =>
          rw [hrec] at h
          have : node :: ord' = ord := by
            simpa [Except.map] using h
          subst this
          refine ⟨walkStep_ok_deps g sat wfuel [] target node hw, ?_, ih _ _ hrec⟩
          exact (walkStep_ok_reach g sat wfuel [] target node hw ht).1

theorem sg_ok_target_mem (g : DepGraph) (target : String) (wfuel : Nat) :
    ∀ (fuel : Nat) (sat ord : List String),
      solventGo g target wfuel fuel sat = .ok ord → target ∉ sat → target ∈ ord := by
  intro fuel
  induction fuel with
  | zero => intro sat ord h _; simp [solventGo] at h
  | succ f ih =>
    intro sat ord h ht
    unfold solventGo at h
    rw [if_neg ht] at h
    cases hw : walkStep g sat wfuel [] target with
    | error e => rw [hw] at h; exact absurd h (by simp)
    | ok node =>
      rw [hw] at h
      simp only [] at h
      cases hrec : solventGo g target wfuel f (node :: sat) with
      | error e => rw [hrec] at h; exact absurd h (by simp [Except.map])
      | ok ord' =>
        rw [hrec] at h
        have hord : node :: ord' = ord := by simpa [Except.map] using h
        subst hord
        by_cases hnt : node = target
        · rw [hnt]; exact List.mem_cons_self _ _
        · have ht2 : target ∉ node :: sat := by
            intro hmem
            rcases List.mem_cons.mp hmem with rfl | hmem'
            · exact hnt rfl
            · exact ht hmem'
          exact List.mem_cons_of_mem _ (ih _ _ hrec ht2)

theorem sg_ok_reach (g : DepGraph) (target : String) (wfuel : Nat) :
    ∀ (fuel : Nat) (sat ord : List String),
      solventGo g target wfuel fuel sat = .ok ord →
      ∀ n ∈ ord, n ∈ sat ∨ Relation.ReflTransGen (adjRel g) target n := by
  intro fuel
  induction fuel with
  | zero => intro sat ord h; simp [solventGo] at h
  | succ f ih =>
    intro sat ord h n hn
    unfold solventGo at h
    by_cases ht : target ∈ sat
    · rw [if_pos ht] at h
      have : ([] : List String) = ord := by injection h
      subst this
      simp at hn
    · rw [if_neg ht] at h
      cases hw : walkStep g sat wfuel [] target with
      | error e => rw [hw] at h; exact absurd h (by simp)
      | ok node =>
        rw [hw] at h
        simp only [] at h
        cases hrec : solventGo g target wfuel f (node :: sat) with
        | error e => rw [hrec] at h; exact absurd h (by simp [Except.map])
        | ok ord' =>
          rw [hrec] at h
          have hord : node :: ord' = ord := by simpa [Except.map] using h
          subst hord
          have hreach0 : Relation.ReflTransGen (adjRel g) target node :=
            (walkStep_ok_reach g sat wfuel [] target node hw ht).2
          rcases List.mem_cons.mp hn with rfl | hn'
          · exact Or.inr hreach0
          · rcases ih _ _ hrec n hn' with hmem | hreach
            · rcases List.mem_cons.mp hmem with rfl | hmem'
              · exact Or.inr hreach0
              · exact Or.inl hmem'
            · exact Or.inr hreach

theorem sg_ok_exists (g : DepGraph) (U : List String) (target : String)
    (hclosed : ∀ n ∈ U, ∀ d ∈ g.adj n, d ∈ U)
    (hacyc : ∀ n, ¬ Relation.TransGen (adjRel g) n n)
    (htU : target ∈ U) (wfuel : Nat) (hwfuel : U.length + 1 ≤ wfuel) :
    ∀ (fuel : Nat) (sat : List String),
      sat.Nodup → (∀ c ∈ sat, c ∈ U) → (∀ n ∈ sat, ∀ d ∈ g.adj n, d ∈ sat) →
      U.length + 1 ≤ fuel + sat.length →
      ∃ ord, solventGo g target wfuel fuel sat = .ok ord := by
  intro fuel
  induction fuel with
  | zero =>
    intro sat hnd hsU _ hfuel
    exfalso
    have hle : sat.length ≤ U.length :=
      (List.subperm_of_subset hnd (fun x hx => hsU x hx)).length_le
    omega
  | succ f ih =>
    intro sat hnd hsU hsclosed hfuel
    by_cases ht : target ∈ sat
    · exact ⟨[], by unfold solventGo; rw [if_pos ht]⟩
    · obtain ⟨node, hw⟩ := walkStep_ok_exists g U hclosed hacyc sat wfuel [] target htU
        List.nodup_nil (by simp) (by simp) (by simpa using hwfuel)
      have hnode_sat : node ∉ sat := (walkStep_ok_reach g sat wfuel [] target node hw ht).1
      have hnode_U : node ∈ U :=
        rtGen_mem_of_closed g U hclosed target node
          (walkStep_ok_reach g sat wfuel [] target node hw ht).2 htU
      have hdeps : ∀ d ∈ g.adj node, d ∈ sat := walkStep_ok_deps g sat wfuel [] target node hw
      obtain ⟨ord', hrec⟩ := ih (node :: sat)
        (List.nodup_cons.mpr ⟨hnode_sat, hnd⟩)
        (by
          intro c hc
          rcases List.mem_cons.mp hc with rfl | hc'
          · exact hnode_U
          · exact hsU c hc')
        (by
          intro n hn d hd
          rcases List.mem_cons.mp hn with rfl | hn'
          · exact List.mem_cons_of_mem _ (hdeps d hd)
          · exact List.mem_cons_of_mem _ (hsclosed n hn' d hd))
        (by simp only [List.length_cons]; omega)
      refine ⟨node :: ord', ?_⟩
      unfold solventGo
      rw [if_neg ht, hw]
      simp only []
      rw [hrec]
      rfl

theorem pkgIds_cons (p : PackageSrc) (rest : List PackageSrc) :
    pkgIds (p :: rest) = p.id :: pkgIds rest := rfl

theorem find?_eq_some_self (pkgs : List PackageSrc) (p : PackageSrc)
    (hnd : (pkgIds pkgs).Nodup) (hp : p ∈ pkgs) :
    pkgs.find? (fun q => q.id == p.id) = some p := by
  induction pkgs with
  | nil => simp at hp
  | cons q rest ih =>
    rw [pkgIds_cons] at hnd
    obtain ⟨hqnm, hnd'⟩ := List.nodup_cons.mp hnd
    rcases List.mem_cons.mp hp with rfl | hp'
    · exact List.find?_cons_of_pos _ (by simp)
    · have hq : ¬ (q.id == p.id) = true := by
        simp only [beq_iff_eq]
        intro hh
        exact hqnm (hh ▸ List.mem_map_of_mem (fun r => r.id) hp')
      rw [List.find?_cons_of_neg _ (by simpa using hq)]
      exact ih hnd' hp'

theorem find?_id_spec (pkgs : List PackageSrc) (n : String) (p : PackageSrc)
    (h : pkgs.find? (fun q => q.id == n) = some p) : p ∈ pkgs ∧ p.id = n := by
  refine ⟨List.mem_of_find?_eq_some h, ?_⟩
  have := List.find?_some h
  simpa [beq_iff_eq] using this

theorem find?_eq_none_of_not_id (pkgs : List PackageSrc) (n : String)
    (h : n ∉ pkgIds pkgs) : pkgs.find? (fun q => q.id == n) = none := by
  rw [List.find?_eq_none]
  intro p hp
  simp only [beq_iff_eq]
  intro hh
  exact h (hh ▸ List.mem_map_of_mem (fun r => r.id) hp)

theorem adj_complete (pkgs : List PackageSrc) (ho : HashOrders) :
    (buildGraph pkgs ho).adj "__complete" = ho.completeOrder := by
  simp [buildGraph]

theorem adj_pkg (pkgs : List PackageSrc) (ho : HashOrders) (p : PackageSrc)
    (hnd : (pkgIds pkgs).Nodup) (hp : p ∈ pkgs) (hne : p.id ≠ "__complete") :
    (buildGraph pkgs ho).adj p.id = ho.needsOrder p.id := by
  simp [buildGraph, hne, find?_eq_some_self pkgs p hnd hp]

theorem mem_adj_complete (pkgs : List PackageSrc) (ho : HashOrders)
    (hval : ho.Valid pkgs) (d : String) :
    d ∈ (buildGraph pkgs ho).adj "__complete" ↔ d ∈ pkgIds pkgs := by
  rw [adj_complete]
  rw [hval.1.mem_iff]
  exact List.mem_dedup

theorem mem_adj_pkg (pkgs : List PackageSrc) (ho : HashOrders) (p : PackageSrc)
    (hval : ho.Valid pkgs) (hnd : (pkgIds pkgs).Nodup) (hp : p ∈ pkgs)
    (hne : p.id ≠ "__complete") (d : String) :
    d ∈ (buildGraph pkgs ho).adj p.id ↔ d ∈ p.needs := by
  rw [adj_pkg pkgs ho p hnd hp hne]
  rw [(hval.2 p hp).mem_iff]
  exact List.mem_dedup

theorem needsRel_mem_ids (pkgs : List PackageSrc) (a b : String)
    (h : needsRel pkgs a b) : a ∈ pkgIds pkgs := by
  obtain ⟨p, hp, rfl, _⟩ := h
  exact List.mem_map_of_mem (fun r => r.id) hp

theorem needsRel_to_adjRel (pkgs : List PackageSrc) (ho : HashOrders)
    (hval : ho.Valid pkgs) (hnd : (pkgIds pkgs).Nodup)
    (hnc : "__complete" ∉ pkgIds pkgs) :
    ∀ a b, needsRel pkgs a b → adjRel (buildGraph pkgs ho) a b := by
  intro a b h
  obtain ⟨p, hp, rfl, hb⟩ := h
  have hne : p.id ≠ "__complete" := fun hh =>
    hnc (hh ▸ List.mem_map_of_mem (fun r => r.id) hp)
  exact (mem_adj_pkg pkgs ho p hval hnd hp hne b).mpr hb

theorem adjRel_to_needsRel (pkgs : List PackageSrc) (ho : HashOrders)
    (hval : ho.Valid pkgs) (a b : String)
    (hab : adjRel (buildGraph pkgs ho) a b) (hne : a ≠ "__complete") :
    needsRel pkgs a b := by
  have hab2 : b ∈ (if a = "__complete" then ho.completeOrder
      else match pkgs.find? (fun q => q.id == a) with
        | some _ => ho.needsOrder a
        | none => []) := hab
  rw [if_neg hne] at hab2
  cases hf : pkgs.find? (fun q => q.id == a) with
  | none => rw [hf] at hab2; simp at hab2
  | some p =>
    rw [hf] at hab2
    simp only [] at hab2
    obtain ⟨hp, hid⟩ := find?_id_spec pkgs a p hf
    have hb : b ∈ p.needs := by
      have := (hval.2 p hp).mem_iff.mp (hid ▸ hab2)
      exact List.mem_dedup.mp this
    exact ⟨p, hp, hid, hb⟩

theorem transGen_precedes (g : DepGraph) (ord : List String)
    (hdcs : DepsClosedSeq g [] ord) :
    ∀ a b, Relation.TransGen (adjRel g) a b → a ∈ ord → precedes ord b a := by
  intro a b h
  induction h with
  | single hab =>
    intro ha
    rcases dcs_adj_precedes g ord [] hdcs a ha _ hab with hmem | hp
    · simp at hmem
    · exact hp
  | tail _ hbc ih =>
    intro ha
    have hpb := ih ha
    have hbord := hpb.1
    rcases dcs_adj_precedes g ord [] hdcs _ hbord _ hbc with hmem | hp
    · simp at hmem
    · exact precedes_trans ord _ _ _ hp hpb

theorem collect_ok_find (pkgs : List PackageSrc) :
    ∀ (ns : List String) (l : List PackageSrc),
      collectPackages pkgs ns = .ok l →
      ∀ n ∈ ns, n ≠ "__complete" → pkgs.find? (fun q => q.id == n) ≠ none := by
  intro ns
  induction ns with
  | nil => intro l _ n hn; simp at hn
  | cons m rest ih =>
    intro l h n hn hne
    unfold collectPackages at h
    by_cases hm : m = "__complete"
    · rw [if_pos hm] at h
      rcases List.mem_cons.mp hn with rfl | hn'
      · exact absurd hm hne
      · exact ih l h n hn' hne
    · rw [if_neg hm] at h
      cases hf : pkgs.find? (fun q => q.id == m) with
      | none => rw [hf] at h; exact absurd h (by simp)
      | some p =>
        rw [hf] at h
        simp only [] at h
        cases hrec : collectPackages pkgs rest with
        | error e => rw [hrec] at h; exact absurd h (by simp [Except.map])
        | ok l' =>
          rcases List.mem_cons.mp hn with rfl | hn'
          · rw [hf]; simp
          · exact ih l' hrec n hn' hne

theorem collect_ok_spec (pkgs : List PackageSrc) :
    ∀ (ns : List String) (l : List PackageSrc),
      collectPackages pkgs ns = .ok l →
      pkgIds l = ns.filter (fun n => n != "__complete") ∧ ∀ p ∈ l, p ∈ pkgs := by
  intro ns
  induction ns with
  | nil =>
    intro l h
    unfold collectPackages at h
    have : ([] : List PackageSrc) = l := by injection h
    subst this
    exact ⟨rfl, by simp⟩
  | cons m rest ih =>
    intro l h
    unfold collectPackages at h
    by_cases hm : m = "__complete"
    · rw [if_pos hm] at h
      obtain ⟨hids, hsub⟩ := ih l h
      subst hm
      refine ⟨?_, hsub⟩
      rw [List.filter_cons]
      simp [hids]
    · rw [if_neg hm] at h
      cases hf : pkgs.find? (fun q => q.id == m) with
      | none => rw [hf] at h; exact absurd h (by simp)
      | some p =>
        rw [hf] at h
        simp only [] at h
        cases hrec : collectPackages pkgs rest with
        | error e => rw [hrec] at h; exact absurd h (by simp [Except.map])
        | ok l' =>
          rw [hrec] at h
          have hl : p :: l' = l := by simpa [Except.map] using h
          subst hl
          obtain ⟨hids, hsub⟩ := ih l' hrec
          obtain ⟨hp, hpid⟩ := find?_id_spec pkgs m p hf
          constructor
          · rw [pkgIds_cons, hids, List.filter_cons]
            simp [hm, hpid]
          · intro q hq
            rcases List.mem_cons.mp hq with rfl | hq'
            · exact hp
            · exact hsub q hq'

theorem precedes_filter (l : List String) (p : String → Bool) (a b : String)
    (ha : p a = true) (hb : p b = true) :
    ∀ (hp : precedes l a b), precedes (l.filter p) a b := by
  induction l with
  | nil => intro hp; exact absurd hp.1 (by simp)
  | cons h t ih =>
    intro hp
    obtain ⟨hal, hbl, hlt⟩ := hp
    by_cases hha : h = a
    · subst hha
      have hba : b ≠ h := by
        intro hh
        subst hh
        rw [idxOf_cons_self] at hlt
        omega
      have hbt : b ∈ t := by
        rcases List.mem_cons.mp hbl with rfl | hbt'
        · exact absurd rfl hba
        · exact hbt'
      rw [List.filter_cons, if_pos ha]
      exact precedes_cons_head (t.filter p) b h (List.mem_filter.mpr ⟨hbt, hb⟩) hba
    · by_cases hhb : h = b
      · exfalso
        subst hhb
        rw [idxOf_cons_self] at hlt
        omega
      · have hat : a ∈ t := by
          rcases List.mem_cons.mp hal with rfl | h'
          · exact absurd rfl hha
          · exact h'
        have hbt : b ∈ t := by
          rcases List.mem_cons.mp hbl with rfl | h'
          · exact absurd rfl hhb
          · exact h'
        have hlt' : idxOf a t < idxOf b t := by
          rw [idxOf_cons_ne a h t hha, idxOf_cons_ne b h t hhb] at hlt
          omega
        have hrec := ih ⟨hat, hbt, hlt'⟩
        rw [List.filter_cons]
        by_cases hph : p h = true
        · rw [if_pos hph]
          exact precedes_cons (t.filter p) a b h hrec (fun hh => hhb hh.symm)
        · rw [if_neg hph]
          exact hrec

theorem pkgs_perm_of_ids_perm (l pkgs : List PackageSrc)
    (hsub : ∀ p ∈ l, p ∈ pkgs)
    (hperm : (pkgIds l).Perm (pkgIds pkgs)) (hnd : (pkgIds pkgs).Nodup) :
    l.Perm pkgs := by
  have hndl : (pkgIds l).Nodup := hperm.nodup_iff.mpr hnd
  have hnd_l : l.Nodup := List.Nodup.of_map _ hndl
  have hnd_p : pkgs.Nodup := List.Nodup.of_map _ hnd
  have hinj := List.inj_on_of_nodup_map (f := fun r : PackageSrc => r.id) hnd
  have hsub2 : ∀ p ∈ pkgs, p ∈ l := by
    intro p hp
    have hmem : p.id ∈ pkgIds l :=
      hperm.mem_iff.mpr (List.mem_map_of_mem (fun r => r.id) hp)
    obtain ⟨q, hq, hqid⟩ := List.mem_map.mp hmem
    have : q = p := hinj (hsub q hq) hp hqid
    exact this ▸ hq
  exact (List.subperm_of_subset hnd_l hsub).antisymm
    (List.subperm_of_subset hnd_p hsub2)

theorem collect_ok_exists (pkgs : List PackageSrc) (hnd : (pkgIds pkgs).Nodup) :
    ∀ ns : List String, (∀ n ∈ ns, n ≠ "__complete" → n ∈ pkgIds pkgs) →
      ∃ l, collectPackages pkgs ns = .ok l := by
  intro ns
  induction ns with
  | nil => intro _; exact ⟨[], rfl⟩
  | cons m rest ih =>
    intro hmem
    obtain ⟨l', hl'⟩ := ih (fun n hn hne => hmem n (List.mem_cons_of_mem _ hn) hne)
    by_cases hm : m = "__complete"
    · exact ⟨l', by unfold collectPackages; rw [if_pos hm]; exact hl'⟩
    · have hmid : m ∈ pkgIds pkgs := hmem m (List.mem_cons_self _ _) hm
      obtain ⟨p, hp, hpid⟩ := List.mem_map.mp hmid
      have hfind : pkgs.find? (fun q => q.id == m) = some p := by
        rw [← hpid]
        exact find?_eq_some_self pkgs p hnd hp
      refine ⟨p :: l', ?_⟩
      unfold collectPackages
      rw [if_neg hm, hfind]
      simp only []
      rw [hl']
      rfl

/-- The main resolution lemma: on a well-formed acyclic package set,
get_all_packages succeeds, returns a permutation of the loaded packages,
and places every package after all of its transitive dependencies — for
EVERY HashSet iteration order the run's hash seeds could produce. -/
theorem resolve_ok (pkgs : List PackageSrc) (ho : HashOrders)
    (hval : ho.Valid pkgs) (hnd : (pkgIds pkgs).Nodup)
    (hnc : "__complete" ∉ pkgIds pkgs)
    (hcl : NeedsClosed pkgs) (hacyc : AcyclicNeeds pkgs) :
    ∃ l, get_all_packages pkgs ho = .ok l ∧ l.Perm pkgs ∧
      (∀ p ∈ pkgs, ∀ q ∈ pkgs,
        Relation.TransGen (needsRel pkgs) p.id q.id →
        precedes (pkgIds l) q.id p.id) := by
  set g := buildGraph pkgs ho with hg
  set U := "__complete" :: pkgIds pkgs with hU
  have hUclosed : ∀ n ∈ U, ∀ d ∈ g.adj n, d ∈ U := by
    intro n hn d hd
    rcases List.mem_cons.mp hn with rfl | hnid
    · exact List.mem_cons_of_mem _ ((mem_adj_complete pkgs ho hval d).mp hd)
    · obtain ⟨p, hp, hpid⟩ := List.mem_map.mp hnid
      have hne : p.id ≠ "__complete" := fun hh =>
        hnc (hh ▸ List.mem_map_of_mem (fun r => r.id) hp)
      subst hpid
      have : d ∈ p.needs := (mem_adj_pkg pkgs ho p hval hnd hp hne d).mp hd
      exact List.mem_cons_of_mem _ (hcl p hp d this)
  have hedge_ne : ∀ a b, adjRel g a b → b ≠ "__complete" := by
    intro a b hab
    by_cases ha : a = "__complete"
    · subst ha
      have : b ∈ pkgIds pkgs := (mem_adj_complete pkgs ho hval b).mp hab
      exact fun hh => hnc (hh ▸ this)
    · obtain ⟨p, hp, _, hb⟩ := adjRel_to_needsRel pkgs ho hval a b hab ha
      have : b ∈ pkgIds pkgs := hcl p hp b hb
      exact fun hh => hnc (hh ▸ this)
  have htg_ne : ∀ a b, Relation.TransGen (adjRel g) a b → b ≠ "__complete" := by
    intro a b h
    induction h with
    | single hab => exact hedge_ne _ _ hab
    | tail _ hbc _ => exact hedge_ne _ _ hbc
  have hconv : ∀ a b, Relation.TransGen (adjRel g) a b → a ≠ "__complete" →
      Relation.TransGen (needsRel pkgs) a b := by
    intro a b h
    induction h with
    | single hab =>
      intro hane
      exact Relation.TransGen.single (adjRel_to_needsRel pkgs ho hval _ _ hab hane)
    | tail hab hbc ih =>
      intro hane
      exact (ih hane).tail
        (adjRel_to_needsRel pkgs ho hval _ _ hbc (htg_ne _ _ hab))
  have hgacyc : ∀ n, ¬ Relation.TransGen (adjRel g) n n := by
    intro n h
    by_cases hn : n = "__complete"
    · exact (htg_ne n n h) hn
    · exact hacyc n (hconv n n h hn)
  have hUlen : U.length = pkgs.length + 1 := by
    simp [hU, pkgIds]
  have hwfuel : U.length + 1 ≤ resolveFuel pkgs := by
    unfold resolveFuel
    omega
  obtain ⟨ord, hord⟩ := sg_ok_exists g U "__complete" hUclosed hgacyc
    (List.mem_cons_self _ _) (resolveFuel pkgs) hwfuel (resolveFuel pkgs) []
    List.nodup_nil (by simp) (by simp) (by simpa using hwfuel)
  have hdep : dependenciesOf g "__complete" (resolveFuel pkgs) = .ok ord := hord
  have hdcs : DepsClosedSeq g [] ord :=
    sg_ok_closedSeq g "__complete" (resolveFuel pkgs) (resolveFuel pkgs) [] ord hord
  have hordnd : ord.Nodup := (dcs_nodup g ord [] hdcs).1
  have htmem : "__complete" ∈ ord :=
    sg_ok_target_mem g "__complete" (resolveFuel pkgs) (resolveFuel pkgs) [] ord hord
      (by simp)
  have hidsub : ∀ d ∈ pkgIds pkgs, d ∈ ord := by
    intro d hd
    have hadj : d ∈ g.adj "__complete" := (mem_adj_complete pkgs ho hval d).mpr hd
    rcases dcs_adj_precedes g ord [] hdcs _ htmem d hadj with hmem | hp
    · simp at hmem
    · exact hp.1
  have hordU : ∀ n ∈ ord, n ∈ U := by
    intro n hn
    rcases sg_ok_reach g "__complete" (resolveFuel pkgs) (resolveFuel pkgs) [] ord hord
        n hn with hmem | hreach
    · simp at hmem
    · exact rtGen_mem_of_closed g U hUclosed _ _ hreach (List.mem_cons_self _ _)
  have hUord : ∀ n ∈ U, n ∈ ord := by
    intro n hn
    rcases List.mem_cons.mp hn with rfl | hn'
    · exact htmem
    · exact hidsub n hn'
  have hUnd : U.Nodup := List.nodup_cons.mpr ⟨hnc, hnd⟩
  have hperm : ord.Perm U :=
    (List.subperm_of_subset hordnd (fun x hx => hordU x hx)).antisymm
      (List.subperm_of_subset hUnd (fun x hx => hUord x hx))
  obtain ⟨l, hcoll⟩ := collect_ok_exists pkgs hnd ord (by
    intro n hn hne
    rcases List.mem_cons.mp (hordU n hn) with rfl | h'
    · exact absurd rfl hne
    · exact h')
  obtain ⟨hids, hsubl⟩ := collect_ok_spec pkgs ord l hcoll
  have hUfilter : U.filter (fun n => n != "__complete") = pkgIds pkgs := by
    have hall : ∀ a ∈ pkgIds pkgs, (a != "__complete") = true := by
      intro a ha
      simp only [bne_iff_ne, ne_eq]
      exact fun hh => hnc (hh ▸ ha)
    rw [hU, List.filter_cons]
    simp [List.filter_eq_self.mpr hall]
  have hidsperm : (pkgIds l).Perm (pkgIds pkgs) := by
    rw [hids, ← hUfilter]
    exact hperm.filter _
  have hlperm : l.Perm pkgs := pkgs_perm_of_ids_perm l pkgs hsubl hidsperm hnd
  refine ⟨l, ?_, hlperm, ?_⟩
  · unfold get_all_packages
    rw [hdep]
    simp only []
    exact hcoll
  · intro p hp q hq htg
    have htga : Relation.TransGen (adjRel g) p.id q.id :=
      Relation.TransGen.mono (needsRel_to_adjRel pkgs ho hval hnd hnc) htg
    have hpord : p.id ∈ ord := hidsub _ (List.mem_map_of_mem (fun r => r.id) hp)
    have hprec : precedes ord q.id p.id := transGen_precedes g ord hdcs _ _ htga hpord
    have hqne : (q.id != "__complete") = true := by
      simp only [bne_iff_ne, ne_eq]
      exact fun hh => hnc (hh ▸ List.mem_map_of_mem (fun r => r.id) hq)
    have hpne : (p.id != "__complete") = true := by
      simp only [bne_iff_ne, ne_eq]
      exact fun hh => hnc (hh ▸ List.mem_map_of_mem (fun r => r.id) hp)
    rw [hids]
    exact precedes_filter ord _ q.id p.id hqne hpne hprec

/-- C2: for all package sets whose declared needs form an acyclic graph
over the packages, get_all_packages returns every package exactly once
(a permutation of the loaded packages), each package only after all of
its transitive dependencies, and the synthetic terminal node
`__complete` is never in the returned list — for every HashSet iteration
order the run's random hash seeds could produce. -/
theorem c2_resolve_topological (pkgs : List PackageSrc) (ho : HashOrders)
    (hval : ho.Valid pkgs) (hnd : (pkgIds pkgs).Nodup)
    (hnc : "__complete" ∉ pkgIds pkgs)
    (hcl : NeedsClosed pkgs) (hacyc : AcyclicNeeds pkgs) :
    ∃ l, get_all_packages pkgs ho = .ok l ∧ l.Perm pkgs ∧
      "__complete" ∉ pkgIds l ∧
      (∀ p ∈ pkgs, ∀ q ∈ pkgs,
        Relation.TransGen (needsRel pkgs) p.id q.id →
        precedes (pkgIds l) q.id p.id) := by
  obtain ⟨l, h1, h2, h3⟩ := resolve_ok pkgs ho hval hnd hnc hcl hacyc
  refine ⟨l, h1, h2, ?_, h3⟩
  intro hmem
  exact hnc ((h2.map (fun r => r.id)).mem_iff.mp hmem)

/-- A package set in which no package declares any needs is acyclic. -/
theorem acyclic_of_no_needs (pkgs : List PackageSrc)
    (h : ∀ p ∈ pkgs, p.needs = []) : AcyclicNeeds pkgs := by
  intro n hn
  cases hn with
  | single h1 =>
    obtain ⟨p, hp, _, hb⟩ := h1
    rw [h p hp] at hb
    simp at hb
  | tail _ h1 =>
    obtain ⟨p, hp, _, hb⟩ := h1
    rw [h p hp] at hb
    simp at hb

/-- A minimal packages fixture: one package with no needs. -/
def pkgA : PackageSrc :=
  ⟨"a", "", [], [], ⟨0, 5000⟩, ⟨false, []⟩, ⟨false, []⟩, [], []⟩

/-- A second minimal package. -/
def pkgB : PackageSrc :=
  ⟨"b", "", [], [], ⟨0, 5000⟩, ⟨false, []⟩, ⟨false, []⟩, [], []⟩

/-- A hash order for the single-package fixture. -/
def hoA : HashOrders := ⟨["a"], fun _ => []⟩

/-- Witness for C2 at the single-package fixture. -/
theorem c2_witness :
    ∃ l, get_all_packages [pkgA] hoA = .ok l ∧ l.Perm [pkgA] ∧
      "__complete" ∉ pkgIds l ∧
      (∀ p ∈ [pkgA], ∀ q ∈ [pkgA],
        Relation.TransGen (needsRel [pkgA]) p.id q.id →
        precedes (pkgIds l) q.id p.id) :=
  c2_resolve_topological [pkgA] hoA ⟨by decide, by decide⟩ (by decide) (by decide)
    (by decide) (acyclic_of_no_needs [pkgA] (by decide))

theorem transGen_needsRel_src_mem (pkgs : List PackageSrc) (a b : String)
    (h : Relation.TransGen (needsRel pkgs) a b) : a ∈ pkgIds pkgs := by
  induction h with
  | single h1 => exact needsRel_mem_ids pkgs _ _ h1
  | tail _ _ ih => exact ih

/-- On a cyclic needs graph, or when some needs entry names no existing
package, get_all_packages fails — for every valid HashSet iteration
order. -/
theorem resolve_err (pkgs : List PackageSrc) (ho : HashOrders)
    (hval : ho.Valid pkgs) (hnd : (pkgIds pkgs).Nodup)
    (hnc : "__complete" ∉ pkgIds pkgs)
    (hbad : (∃ c, Relation.TransGen (needsRel pkgs) c c) ∨
            (∃ p ∈ pkgs, ∃ d ∈ p.needs, d ∉ pkgIds pkgs)) :
    ∃ e, get_all_packages pkgs ho = .error e := by
  cases hres : get_all_packages pkgs ho with
  | error e => exact ⟨e, rfl⟩
  | ok l =>
    exfalso
    unfold get_all_packages at hres
    set g := buildGraph pkgs ho with hg
    cases hdep : dependenciesOf g "__complete" (resolveFuel pkgs) with
    | error e => rw [hdep] at hres; simp at hres
    | ok ord =>
      rw [hdep] at hres
      simp only [] at hres
      have hord : solventGo g "__complete" (resolveFuel pkgs) (resolveFuel pkgs) [] =
          .ok ord := hdep
      have hdcs : DepsClosedSeq g [] ord :=
        sg_ok_closedSeq g "__complete" (resolveFuel pkgs) (resolveFuel pkgs) [] ord hord
      have htmem : "__complete" ∈ ord :=
        sg_ok_target_mem g "__complete" (resolveFuel pkgs) (resolveFuel pkgs) [] ord hord
          (by simp)
      have hidsub : ∀ d ∈ pkgIds pkgs, d ∈ ord := by
        intro d hd
        have hadj : d ∈ g.adj "__complete" := (mem_adj_complete pkgs ho hval d).mpr hd
        rcases dcs_adj_precedes g ord [] hdcs _ htmem d hadj with hmem | hp
        · simp at hmem
        · exact hp.1
      cases hbad with
      | inl hcyc =>
        obtain ⟨c, hc⟩ := hcyc
        have hcid : c ∈ pkgIds pkgs := transGen_needsRel_src_mem pkgs c c hc
        have hcord : c ∈ ord := hidsub c hcid
        have htga : Relation.TransGen (adjRel g) c c :=
          Relation.TransGen.mono (needsRel_to_adjRel pkgs ho hval hnd hnc) hc
        exact precedes_irrefl ord c (transGen_precedes g ord hdcs c c htga hcord)
      | inr hghost =>
        obtain ⟨p, hp, d, hd, hdnot⟩ := hghost
        have hpid_mem : p.id ∈ pkgIds pkgs := List.mem_map_of_mem (fun r => r.id) hp
        have hpne : p.id ≠ "__complete" := fun hh => hnc (hh ▸ hpid_mem)
        have hpord : p.id ∈ ord := hidsub _ hpid_mem
        have hdadj : d ∈ g.adj p.id := (mem_adj_pkg pkgs ho p hval hnd hp hpne d).mpr hd
        have hdord : d ∈ ord := by
          rcases dcs_adj_precedes g ord [] hdcs _ hpord d hdadj with hmem | hpr
          · simp at hmem
          · exact hpr.1
        by_cases hdc : d = "__complete"
        · subst hdc
          have h1 : adjRel g p.id "__complete" := hdadj
          have h2 : adjRel g "__complete" p.id :=
            (mem_adj_complete pkgs ho hval p.id).mpr hpid_mem
          have hcyc2 : Relation.TransGen (adjRel g) p.id p.id :=
            (Relation.TransGen.single h1).tail h2
          exact precedes_irrefl ord p.id
            (transGen_precedes g ord hdcs _ _ hcyc2 hpord)
        · exact collect_ok_find pkgs ord l hres d hdord hdc
            (find?_eq_none_of_not_id pkgs d hdnot)

/-- Two valid iteration orders of the two-package fixture's id set. -/
def hoAB : HashOrders := ⟨["a", "b"], fun _ => []⟩

/-- The reversed iteration order. -/
def hoBA : HashOrders := ⟨["b", "a"], fun _ => []⟩

/-- Counterexample to C5 as stated: with the same packages directory but
two different (equally possible) HashSet iteration orders — which is what
two separate runs of the randomly-seeded program produce — resolution
returns the two tie-broken packages in different orders. -/
theorem c5_counterexample :
    HashOrders.Valid hoAB [pkgA, pkgB] ∧ HashOrders.Valid hoBA [pkgA, pkgB] ∧
    get_all_packages [pkgA, pkgB] hoAB = .ok [pkgA, pkgB] ∧
    get_all_packages [pkgA, pkgB] hoBA = .ok [pkgB, pkgA] ∧
    get_all_packages [pkgA, pkgB] hoAB ≠ get_all_packages [pkgA, pkgB] hoBA := by
  refine ⟨⟨by decide, by decide⟩, ⟨by decide, by decide⟩, by decide, by decide, by decide⟩

/-- C5 (amended): resolution is a deterministic function of the package
set TOGETHER WITH the hash-iteration orders; across runs only the SET of
returned packages is stable — any two valid iteration orders yield
permutations of the same package list — while the relative order of
packages without ordering constraints follows the randomly seeded
HashMap/HashSet iteration order and can differ between runs. -/
theorem c5_stable_set_order_follows_hash (pkgs : List PackageSrc) (ho₁ ho₂ : HashOrders)
    (hval₁ : ho₁.Valid pkgs) (hval₂ : ho₂.Valid pkgs) (hnd : (pkgIds pkgs).Nodup)
    (hnc : "__complete" ∉ pkgIds pkgs) (hcl : NeedsClosed pkgs)
    (hacyc : AcyclicNeeds pkgs) :
    ∃ l₁ l₂, get_all_packages pkgs ho₁ = .ok l₁ ∧
      get_all_packages pkgs ho₂ = .ok l₂ ∧ l₁.Perm l₂ := by
  obtain ⟨l₁, h₁, hp₁, _⟩ := resolve_ok pkgs ho₁ hval₁ hnd hnc hcl hacyc
  obtain ⟨l₂, h₂, hp₂, _⟩ := resolve_ok pkgs ho₂ hval₂ hnd hnc hcl hacyc
  exact ⟨l₁, l₂, h₁, h₂, hp₁.trans hp₂.symm⟩

/-- Witness for the amended C5 at the two-package fixture. -/
theorem c5_witness :
    ∃ l₁ l₂, get_all_packages [pkgA, pkgB] hoAB = .ok l₁ ∧
      get_all_packages [pkgA, pkgB] hoBA = .ok l₂ ∧ l₁.Perm l₂ :=
  c5_stable_set_order_follows_hash [pkgA, pkgB] hoAB hoBA
    ⟨by decide, by decide⟩ ⟨by decide, by decide⟩ (by decide) (by decide) (by decide)
    (acyclic_of_no_needs [pkgA, pkgB] (by decide))

/-! ### Orchestrators (src/commands/plan.rs, src/commands/apply.rs) -/

/-- The configuration root directory both commands read: the global
config and secrets directories and the loaded packages. -/
structure RootDir where
  configDir : ConfigDir
  secretsDir : ConfigDir
  packages : List PackageSrc
deriving DecidableEq, Repr

/-- The per-package part of PlanCommand::run (plan.rs:55-81): load and
describe the package's config and secrets, list its files and tasks —
File::apply and Script::run are never called. -/
def planPackages : List PackageSrc → Except BError Unit × List Effect
  | [] => (.ok (), [])
  | p :: rest =>
    match load_all_config p.configDir with
    | (.error e, eff1) => (.error e, eff1)
    | (.ok _, eff1) =>
      match load_all_config p.secretsDir with
      | (.error e, eff2) => (.error e, eff1 ++ eff2)
      | (.ok _, eff2) =>
        match planPackages rest with
        | (r, eff3) => (r, eff1 ++ eff2 ++ eff3)

/-- PlanCommand::run (plan.rs:33-84): load the global config and secrets,
resolve the packages, then describe every package in order. -/
def runPlan (root : RootDir) (ho : HashOrders) : Except BError Int × List Effect :=
  match load_all_config root.configDir with
  | (.error e, eff1) => (.error e, eff1)
  | (.ok _, eff1) =>
    match load_all_config root.secretsDir with
    | (.error e, eff2) => (.error e, eff1 ++ eff2)
    | (.ok _, eff2) =>
      match get_all_packages root.packages ho with
      | .error e => (.error e, eff1 ++ eff2)
      | .ok pkgs =>
        match planPackages pkgs with
        | (r, eff3) => (r.map (fun _ => (0 : Int)), eff1 ++ eff2 ++ eff3)

/-- The file step of ApplyCommand::apply_package (apply.rs:101-117): for
every enumerated file, the target root is the package's `files` mapping
for the file's group, defaulting to the filesystem root `/`. -/
def applyFiles (pkg : PackageSrc) (config secrets : CMap) : List Effect :=
  pkg.fileEntries.flatMap (fun f =>
    fileApply f ((mapGet pkg.files_map f.group).getD "/") config secrets)

/-- The task step of ApplyCommand::apply_package (apply.rs:119-123):
every task is run in order with the merged maps, stopping at the first
failure. -/
def runTasks (config secrets : CMap) : List TaskSrc → Except BError Unit × List Effect
  | [] => (.ok (), [])
  | t :: rest =>
    match scriptRun t config secrets with
    | (.error e, eff) => (.error e, eff)
    | (.ok _, eff) =>
      match runTasks config secrets rest with
      | (r, eff') => (r, eff ++ eff')

/-- ApplyCommand::apply_package (apply.rs:82-126): clone the global maps,
load and merge the package's own config and secrets over the clones
(package entries override global entries), apply every file with the
merged maps, then run every task. -/
def apply_package (config secrets : CMap) (pkg : PackageSrc) :
    Except BError Unit × List Effect :=
  match load_all_config pkg.configDir with
  | (.error e, eff1) => (.error e, eff1)
  | (.ok pcfg, eff1) =>
    match load_all_config pkg.secretsDir with
    | (.error e, eff2) => (.error e, eff1 ++ eff2)
    | (.ok psec, eff2) =>
      match runTasks (mapInsertAll config pcfg) (mapInsertAll secrets psec) pkg.tasks with
      | (r, eff4) =>
        (r, eff1 ++ eff2 ++
          applyFiles pkg (mapInsertAll config pcfg) (mapInsertAll secrets psec) ++ eff4)

/-- The result of the per-package retry loop in the embedded run:
`exited` — the while condition became false and the run continues;
`erred` — the error was returned; `diverged` — the loop consumed all the
modeling fuel without exiting (the real loop runs forever, which happens
whenever apply_package keeps succeeding). -/
inductive LoopRes where
  | exited : LoopRes
  | erred (e : BError) : LoopRes
  | diverged : LoopRes
deriving DecidableEq, Repr

/-- The per-package retry loop of ApplyCommand::run (apply.rs:61-75) with
the deterministic embedded apply_package supplying every attempt's
outcome (see retryLoop for the loop over abstract outcomes). -/
def applyLoop (config secrets : CMap) (pkg : PackageSrc) :
    Nat → Nat → LoopRes × List Effect
  | 0, _ => (.diverged, [])
  | fuel + 1, retries =>
    if retries > pkg.retry.limit then (.exited, [])
    else
      match apply_package config secrets pkg with
      | (.ok _, eff) =>
        match applyLoop config secrets pkg fuel retries with
        | (r, eff') => (r, eff ++ eff')
      | (.error e, eff) =>
        if pkg.retry.limit ≥ retries + 1 then (.erred e, eff)
        else
          match applyLoop config secrets pkg fuel (retries + 1) with
          | (r, eff') => (r, eff ++ eff')

/-- The package loop of ApplyCommand::run (apply.rs:61-75): every
resolved package in order through its retry loop; a returned error aborts
the run and later packages are not attempted.  `none` stands for the
run never terminating. -/
def runApplyPackages (config secrets : CMap) (fuel : Nat) :
    List PackageSrc → Option (Except BError Int) × List Effect
  | [] => (some (.ok 0), [])
  | p :: rest =>
    match applyLoop config secrets p fuel 0 with
    | (.exited, eff) =>
      match runApplyPackages config secrets fuel rest with
      | (r, eff') => (r, eff ++ eff')
    | (.erred e, eff) => (some (.error e), eff)
    | (.diverged, eff) => (none, eff)

/-- ApplyCommand::run (apply.rs:35-78): load the global config and
secrets, resolve the packages, then apply each in order with the
per-package retry loop. -/
def runApply (root : RootDir) (ho : HashOrders) (fuel : Nat) :
    Option (Except BError Int) × List Effect :=
  match load_all_config root.configDir with
  | (.error e, eff1) => (some (.error e), eff1)
  | (.ok config, eff1) =>
    match load_all_config root.secretsDir with
    | (.error e, eff2) => (some (.error e), eff1 ++ eff2)
    | (.ok secrets, eff2) =>
      match get_all_packages root.packages ho with
      | .error e => (some (.error e), eff1 ++ eff2)
      | .ok pkgs =>
        match runApplyPackages config secrets fuel pkgs with
        | (r, eff3) => (r, eff1 ++ eff2 ++ eff3)

theorem no_write_of_load (dir : ConfigDir) (r : Except BError CMap) (eff : List Effect)
    (h : load_all_config dir = (r, eff)) : ∀ ef ∈ eff, ef.isWrite = false := by
  intro ef hef
  have hgen := load_all_config_no_write dir ef
  rw [h] at hgen
  exact hgen hef

theorem planPackages_no_write :
    ∀ pkgs : List PackageSrc, ∀ ef ∈ (planPackages pkgs).2, ef.isWrite = false := by
  intro pkgs
  induction pkgs with
  | nil => intro ef hef; simp [planPackages] at hef
  | cons p rest ih =>
    intro ef hef
    unfold planPackages at hef
    rcases h1 : load_all_config p.configDir with ⟨r1, eff1⟩
    rw [h1] at hef
    cases r1 with
    | error e =>
      simp only [] at hef
      exact no_write_of_load p.configDir _ _ h1 ef hef
    | ok m1 =>
      simp only [] at hef
      rcases h2 : load_all_config p.secretsDir with ⟨r2, eff2⟩
      rw [h2] at hef
      cases r2 with
      | error e =>
        simp only [] at hef
        rcases List.mem_append.mp hef with h | h
        · exact no_write_of_load _ _ _ h1 ef h
        · exact no_write_of_load _ _ _ h2 ef h
      | ok m2 =>
        simp only [] at hef
        rcases h3 : planPackages rest with ⟨r3, eff3⟩
        rw [h3] at hef
        simp only [] at hef
        rcases List.mem_append.mp hef with h | h
        · rcases List.mem_append.mp h with h' | h'
          · exact no_write_of_load _ _ _ h1 ef h'
          · exact no_write_of_load _ _ _ h2 ef h'
        · have hgen := ih ef
          rw [h3] at hgen
          exact hgen h

/-- C3 (amended): Plan mode performs no filesystem writes — every effect
a plan run can produce is a process spawn that comes from loading a
config or secret script source, never File::apply or Script::run.  The
claim's spawn-freedom does NOT hold: loading a script config source
spawns its interpreter in Plan mode too (see the counterexample). -/
theorem c3_plan_never_writes (root : RootDir) (ho : HashOrders) :
    ∀ ef ∈ (runPlan root ho).2, ef.isWrite = false := by
  intro ef hef
  unfold runPlan at hef
  rcases h1 : load_all_config root.configDir with ⟨r1, eff1⟩
  rw [h1] at hef
  cases r1 with
  | error e =>
    simp only [] at hef
    exact no_write_of_load _ _ _ h1 ef hef
  | ok m1 =>
    simp only [] at hef
    rcases h2 : load_all_config root.secretsDir with ⟨r2, eff2⟩
    rw [h2] at hef
    cases r2 with
    | error e =>
      simp only [] at hef
      rcases List.mem_append.mp hef with h | h
      · exact no_write_of_load _ _ _ h1 ef h
      · exact no_write_of_load _ _ _ h2 ef h
    | ok m2 =>
      simp only [] at hef
      cases hg : get_all_packages root.packages ho with
      | error e =>
        rw [hg] at hef
        simp only [] at hef
        rcases List.mem_append.mp hef with h | h
        · exact no_write_of_load _ _ _ h1 ef h
        · exact no_write_of_load _ _ _ h2 ef h
      | ok pkgs =>
        rw [hg] at hef
        simp only [] at hef
        rcases h3 : planPackages pkgs with ⟨r3, eff3⟩
        rw [h3] at hef
        simp only [] at hef
        rcases List.mem_append.mp hef with h | h
        · rcases List.mem_append.mp h with h' | h'
          · exact no_write_of_load _ _ _ h1 ef h'
          · exact no_write_of_load _ _ _ h2 ef h'
        · have hgen := planPackages_no_write pkgs ef
          rw [h3] at hgen
          exact hgen h

/-- A root whose global config holds a single shell-script source. -/
def rootC3 : RootDir := ⟨⟨true, [⟨"init.sh", "", true, "", ""⟩]⟩, ⟨false, []⟩, []⟩

/-- The hash order of an empty package set. -/
def hoEmpty : HashOrders := ⟨[], fun _ => []⟩

/-- Counterexample to C3 as stated: a successful Plan run over a config
directory containing a script source spawns that script's interpreter —
Plan mode is not free of process spawns. -/
theorem c3_counterexample :
    (runPlan rootC3 hoEmpty).2.any (fun ef => ef.isSpawn) = true ∧
    (runPlan rootC3 hoEmpty).1 = .ok 0 := by
  decide

/-- Witness for the amended C3 at the concrete spawning plan run. -/
theorem c3_witness :
    (Effect.spawn "bash" ["init.sh"] []).isWrite = false :=
  c3_plan_never_writes rootC3 hoEmpty (Effect.spawn "bash" ["init.sh"] []) (by decide)

/-- C6: when the declared needs contain a cycle (a self-dependency
included) or an entry naming a nonexistent package id, get_all_packages
fails with a user-facing error — for every hash iteration order — and an
Apply run over such a configuration reports an error while performing no
filesystem write at all: resolution fails before any package's files or
tasks are touched. -/
theorem c6_bad_graph_fails_before_side_effects (pkgs : List PackageSrc)
    (ho : HashOrders) (hval : ho.Valid pkgs) (hnd : (pkgIds pkgs).Nodup)
    (hnc : "__complete" ∉ pkgIds pkgs)
    (hbad : (∃ c, Relation.TransGen (needsRel pkgs) c c) ∨
            (∃ p ∈ pkgs, ∃ d ∈ p.needs, d ∉ pkgIds pkgs)) :
    (∃ e, get_all_packages pkgs ho = .error e) ∧
    ∀ (root : RootDir) (fuel : Nat), root.packages = pkgs →
      (∃ e, (runApply root ho fuel).1 = some (.error e)) ∧
      ∀ ef ∈ (runApply root ho fuel).2, ef.isWrite = false := by
  obtain ⟨e0, he0⟩ := resolve_err pkgs ho hval hnd hnc hbad
  refine ⟨⟨e0, he0⟩, ?_⟩
  intro root fuel hroot
  unfold runApply
  rcases h1 : load_all_config root.configDir with ⟨r1, eff1⟩
  cases r1 with
  | error e =>
    simp only []
    exact ⟨⟨e, rfl⟩, fun ef hef => no_write_of_load _ _ _ h1 ef hef⟩
  | ok cfg =>
    simp only []
    rcases h2 : load_all_config root.secretsDir with ⟨r2, eff2⟩
    cases r2 with
    | error e =>
      simp only []
      refine ⟨⟨e, rfl⟩, ?_⟩
      intro ef hef
      rcases List.mem_append.mp hef with h | h
      · exact no_write_of_load _ _ _ h1 ef h
      · exact no_write_of_load _ _ _ h2 ef h
    | ok sec =>
      simp only []
      rw [hroot, he0]
      simp only []
      refine ⟨⟨e0, rfl⟩, ?_⟩
      intro ef hef
      rcases List.mem_append.mp hef with h | h
      · exact no_write_of_load _ _ _ h1 ef h
      · exact no_write_of_load _ _ _ h2 ef h

/-- A package that needs itself. -/
def pkgSelf : PackageSrc :=
  ⟨"a", "", ["a"], [], ⟨0, 5000⟩, ⟨false, []⟩, ⟨false, []⟩, [], []⟩

/-- A hash order for the self-dependency fixture. -/
def hoSelf : HashOrders := ⟨["a"], fun _ => ["a"]⟩

/-- An apply root over the self-dependency fixture. -/
def rootSelf : RootDir := ⟨⟨false, []⟩, ⟨false, []⟩, [pkgSelf]⟩

/-- Witness for C6 at the concrete self-dependency fixture. -/
theorem c6_witness :
    (∃ e, (runApply rootSelf hoSelf 3).1 = some (.error e)) ∧
    ∀ ef ∈ (runApply rootSelf hoSelf 3).2, ef.isWrite = false :=
  (c6_bad_graph_fails_before_side_effects [pkgSelf] hoSelf
    ⟨by decide, by decide⟩ (by decide) (by decide)
    (Or.inl ⟨"a", Relation.TransGen.single
      ⟨pkgSelf, List.mem_cons_self _ _, rfl, by decide⟩⟩)).2
    rootSelf 3 rfl

/-- A config directory holding one env source with the given content. -/
def dirEnv (content : String) : ConfigDir := ⟨true, [⟨"c.env", content, true, "", ""⟩]⟩

/-- A package overriding the global key `a` and running one task. -/
def pkgP1 : PackageSrc :=
  ⟨"p1", "", [], [], ⟨0, 5000⟩, dirEnv "a=2", ⟨false, []⟩, [],
    [⟨"t1.ps1", "t1.ps1", false⟩]⟩

/-- A package with no overrides running one task. -/
def pkgP2 : PackageSrc :=
  ⟨"p2", "", [], [], ⟨0, 5000⟩, ⟨false, []⟩, ⟨false, []⟩, [],
    [⟨"t2.ps1", "t2.ps1", false⟩]⟩

/-- A root with global config a=1 and the two packages above. -/
def rootC9 : RootDir := ⟨dirEnv "a=1", ⟨false, []⟩, [pkgP1, pkgP2]⟩

/-- The hash order applying p1 before p2. -/
def hoC9 : HashOrders := ⟨["p1", "p2"], fun _ => []⟩

/-- C9: the per-package merged map is the global map overridden by the
package's own entries (package wins on collision; shown generally and at
the claim's concrete maps), and the global maps are cloned, never
aliased: in a two-package run where the first package overrides the
global key, the second package's task still sees the ORIGINAL global
value — the first package's merge did not leak into the global map. -/
theorem c9_merge_overrides_clone_not_alias :
    (∀ (global pkg : CMap) (k : String), KeysNodup pkg →
        mapGet (mapInsertAll global pkg) k =
          match mapGet pkg k with
          | some v => some v
          | none => mapGet global k) ∧
    mapInsertAll [("a", "1")] [("a", "2"), ("b", "3")] = [("a", "2"), ("b", "3")] ∧
    (runApply rootC9 hoC9 2).2 =
      [Effect.spawn "pwsh" ["t1.ps1"] [("a", "2")],
       Effect.spawn "pwsh" ["t2.ps1"] [("a", "1")]] := by
  refine ⟨?_, by decide, by decide⟩
  intro global pkg k h
  exact mapGet_mapInsertAll pkg h global k

/-- Witness for C9 at the claim's concrete maps. -/
theorem c9_witness :
    mapGet (mapInsertAll [("a", "1")] [("a", "2"), ("b", "3")]) "b" =
      (match mapGet [("a", "2"), ("b", "3")] "b" with
       | some v => some v
       | none => mapGet [("a", "1")] "b") :=
  c9_merge_overrides_clone_not_alias.1 [("a", "1")] [("a", "2"), ("b", "3")] "b"
    (by decide)

end Buckle
